import Mathlib

/-!
Shallow embedding of the streaming segmentation / pipeline core of
`rt_translator.py` (energy VAD, segmenter control loop, TTS output queue,
fail-soft translation adapter), together with theorems checking the
natural-language specification against it.

Times are modelled in integral milliseconds (the source works with
`time.time()` seconds and multiplies differences by 1000 before comparing
with the millisecond-valued tunables; truncated `Nat` subtraction agrees
with the float comparison in every reachable case, because a negative
difference and a truncated-to-zero difference both fail the `>`/`>=`
thresholds, which are positive).  Audio samples are modelled as exact
integers and the RMS as an exact real number.
-/

namespace RT

/-- Tunable module constant (rt_translator.py line 65). -/
def SAMPLE_RATE : Nat := 16000

/-- Tunable module constant (rt_translator.py line 66): frame duration in ms. -/
def BLOCK_MS : Nat := 30

/-- Tunable module constant (rt_translator.py line 67): silence needed to close a phrase, ms. -/
def PAUSE_MS : Nat := 800

/-- Tunable module constant (rt_translator.py line 68): VAD energy threshold. -/
def RMS_THRESH : ℚ := 9 / 1000

/-- Tunable module constant (rt_translator.py line 69): ms between partial emissions. -/
def PARTIAL_EVERY : Nat := 1200

/-- Tunable module constant (rt_translator.py line 70): minimum characters for a partial. -/
def MIN_PARTIAL_CHARS : Nat := 6

/-- The characters Python's `str.strip()` removes (ASCII whitespace). -/
def pyWS (c : Char) : Bool :=
  c == ' ' || c == '\t' || c == '\n' || c == '\r' || c == '\x0b' || c == '\x0c'

/-- Model of Python `str.strip()`: drop whitespace from both ends. -/
def pyStrip (s : String) : String :=
  ⟨((s.data.dropWhile pyWS).reverse.dropWhile pyWS).reverse⟩

/-- A job on the TTS queue: `(text, lang_code)` as put by `TTSWorker.say`. -/
abbrev SpeechJob : Type := String × String

/-- Effect of `TTSWorker.say(text, lang_code, priority)` (rt_translator.py
lines 103-109) on the pending queue contents: the stripped text is ignored
when empty; `priority=1` first drains every queued job (`_drain_queue`,
lines 112-117, a loop of `get_nowait` until the queue is empty) and then
enqueues; any other priority just enqueues. -/
def tts_say (text lang_code : String) (priority : Nat) (q : List SpeechJob) :
    List SpeechJob :=
  let t := pyStrip text
  if t = "" then q
  else (if priority = 1 then ([] : List SpeechJob) else q) ++ [(t, lang_code)]

/-- Mean of the squared normalized samples (the `np.mean(x * x)` of
`rms_energy`, rt_translator.py lines 77-81, with samples normalized by
32768.0); `0` for the empty frame, matching the `x.size == 0` early return. -/
def meanSq (s : List ℤ) : ℚ :=
  if s = [] then 0
  else (s.map (fun (v : ℤ) => ((v : ℚ) / 32768) * ((v : ℚ) / 32768))).sum / s.length

/-- `rms_energy` (rt_translator.py lines 77-81): root mean square of the
normalized samples, `0.0` for an empty frame. -/
noncomputable def rms_energy (s : List ℤ) : ℝ :=
  if s = [] then 0 else Real.sqrt ((meanSq s : ℚ) : ℝ)

/-- `is_speech_energy` (rt_translator.py lines 83-84): true iff
`rms_energy(frame) >= RMS_THRESH`.  Stated computably via the equivalent
squared comparison; the equivalence with the source's comparison on the
square root is proved in `c8_energy_detector`. -/
def is_speech_energy (s : List ℤ) : Bool :=
  decide (RMS_THRESH ^ 2 ≤ meanSq s)

/-- One little-endian byte pair decoded as a signed 16-bit sample
(`np.frombuffer(frame_bytes, dtype=np.int16)`). -/
def int16OfPair (lo hi : Nat) : ℤ :=
  let u := lo % 256 + 256 * (hi % 256)
  if u < 32768 then (u : ℤ) else (u : ℤ) - 65536

/-- Decoding a byte string into int16 samples; `np.frombuffer` raises on a
byte length that is not a multiple of the 2-byte item size, modelled as
`none`. -/
def int16List : List Nat → Option (List ℤ)
  | [] => some []
  | [_] => none
  | lo :: hi :: rest => (int16List rest).map (fun t => int16OfPair lo hi :: t)

/-- `rms_energy` on raw bytes, `none` when the int16 view fails. -/
noncomputable def rms_energyB (bs : List Nat) : Option ℝ :=
  (int16List bs).map rms_energy

/-- `is_speech_energy` on raw bytes, `none` when the int16 view fails. -/
def is_speech_energyB (bs : List Nat) : Option Bool :=
  (int16List bs).map is_speech_energy

/-- `frame_bytes = int(2 * SAMPLE_RATE * BLOCK_MS / 1000)` (line 265). -/
def frame_bytes : Nat := 2 * SAMPLE_RATE * BLOCK_MS / 1000

/-- The frames the coordinator classifies out of one captured chunk
(rt_translator.py lines 294-297): slices `chunk[i:i+frame_bytes]` for
`i in range(0, len(chunk), frame_bytes)`, skipping any slice shorter than
`frame_bytes`. -/
def sliceFrames (chunk : List Nat) : List (List Nat) :=
  ((List.range ((chunk.length + (frame_bytes - 1)) / frame_bytes)).map
      (fun k => (chunk.drop (k * frame_bytes)).take frame_bytes)).filter
    (fun fr => decide (frame_bytes ≤ fr.length))

/-- The external Argos engine seen from `translate_text`:
`langs` is the outcome of `get_installed_languages()` (which can itself
raise), as the list of installed language codes; `run` is the combined
`get_translation`/`translate` call, which can raise. -/
structure MT where
  langs : Except Unit (List String)
  run : String → String → String → Except Unit String

/-- `translate_text(src, tgt, text)` (rt_translator.py lines 203-216),
returning the produced text together with the number of warning lines
printed by the call.  A missing language code yields the warning at line
210 and returns `text or ""` (for a `str` argument, the argument itself);
any exception is caught at line 214, warned once, and the original text is
returned. -/
def translate_text (mt : MT) (src tgt text : String) : String × Nat :=
  match mt.langs with
  | Except.error _ => (text, 1)
  | Except.ok cs =>
    if src ∈ cs ∧ tgt ∈ cs then
      match mt.run src tgt text with
      | Except.ok out => (out, 0)
      | Except.error _ => (text, 1)
    else (text, 1)

/-- The requested language pair is not usable: either enumerating the
installed languages fails, or one of the two codes is not installed. -/
def pairUnavailable (mt : MT) (src tgt : String) : Prop :=
  match mt.langs with
  | Except.error _ => True
  | Except.ok cs => src ∉ cs ∨ tgt ∉ cs

/-- The configuration the control loop reads (`args.partials`). -/
structure Config where
  partials : Bool

/-- One fixed-size frame as the control loop sees it: its energy
classification, its wall-clock timestamp in ms, and what the recognizer
would answer at that point for `rec.PartialResult()["partial"]` and
`rec.FinalResult()["text"]` (the recognizer is an external collaborator,
so its hypotheses enter the model as per-frame oracle inputs). -/
structure Frame where
  speaking : Bool
  now : Nat
  partialHyp : String
  finalHyp : String

/-- An observable emission of the control loop body. -/
inductive Event where
  | emitPartial : String → Event
  | finalize : String → Event
deriving DecidableEq

/-- The mutable loop state of `main` (rt_translator.py lines 286-289),
plus `recGen`, the number of times `rec = KaldiRecognizer(model, ...)` has
been re-executed (line 331) — the generation of the live session. -/
structure LoopState where
  got_voice : Bool
  last_voice_time : Nat
  partial_buf_text : String
  partial_last_emit : Nat
  recGen : Nat
deriving DecidableEq

/-- Initial loop state (lines 286-289): `last_voice_time = 0.0`,
`got_voice = False`, `partial_buf_text = ""`, `partial_last_emit = 0.0`. -/
def initState : LoopState :=
  { got_voice := false, last_voice_time := 0, partial_buf_text := ""
    partial_last_emit := 0, recGen := 0 }

/-- The body of the per-frame loop (rt_translator.py lines 299-332) after
`rec.AcceptWaveform(frame)` has fed the frame to the current session.
Speaking frame: set `got_voice`/`last_voice_time`; if `--partials` and
`(now - partial_last_emit) * 1000.0 > PARTIAL_EVERY` (strict), strip the
partial hypothesis and emit it when nonempty, different from
`partial_buf_text` and at least `MIN_PARTIAL_CHARS` long.  Silent frame:
when `got_voice` and `(now - last_voice_time) * 1000.0 >= PAUSE_MS`, take
the final hypothesis, clear the partial state, and rebuild the recognizer
(generation + 1). -/
def stepFrame (cfg : Config) (st : LoopState) (fr : Frame) : LoopState × List Event :=
  if fr.speaking = true then
    let st1 := { st with got_voice := true, last_voice_time := fr.now }
    if cfg.partials = true ∧ PARTIAL_EVERY < fr.now - st.partial_last_emit then
      let p := pyStrip fr.partialHyp
      if p ≠ "" ∧ p ≠ st.partial_buf_text ∧ MIN_PARTIAL_CHARS ≤ p.length then
        ({ st1 with partial_buf_text := p, partial_last_emit := fr.now },
         [Event.emitPartial p])
      else (st1, [])
    else (st1, [])
  else
    if st.got_voice = true ∧ PAUSE_MS ≤ fr.now - st.last_voice_time then
      ({ st with got_voice := false, partial_buf_text := ""
                 partial_last_emit := 0, recGen := st.recGen + 1 },
       [Event.finalize (pyStrip fr.finalHyp)])
    else (st, [])

/-- Loop state after the first `n` frames of the stream `f`. -/
def stateAfter (cfg : Config) (f : Nat → Frame) : Nat → LoopState
  | 0 => initState
  | n + 1 => (stepFrame cfg (stateAfter cfg f n) (f n)).1

/-- The emissions produced while processing frame `n`. -/
def eventsAt (cfg : Config) (f : Nat → Frame) (n : Nat) : List Event :=
  (stepFrame cfg (stateAfter cfg f n) (f n)).2

/-- Recognizes a finalize emission. -/
def isFinalizeEv : Event → Bool
  | Event.finalize _ => true
  | Event.emitPartial _ => false

/-- Frame `n` fires a segment finalization. -/
def finalizeAt (cfg : Config) (f : Nat → Frame) (n : Nat) : Bool :=
  (eventsAt cfg f n).any isFinalizeEv

/-- Frame `n` emits a partial utterance. -/
def emitsPartialAt (cfg : Config) (f : Nat → Frame) (n : Nat) : Bool :=
  (eventsAt cfg f n).any (fun e => !isFinalizeEv e)

/-- Number of finalizations among the first `n` frames; also the index of
the segment open while frame `n` is processed. -/
def finCount (cfg : Config) (f : Nat → Frame) : Nat → Nat
  | 0 => 0
  | n + 1 => finCount cfg f n + (if finalizeAt cfg f n then 1 else 0)

/-- All emissions of the first `n` frames, in processing order.  This is
also the order in which the single-threaded loop hands jobs to the speech
queue (`tts.say` at lines 316 and 329). -/
def eventsUpTo (cfg : Config) (f : Nat → Frame) (n : Nat) : List Event :=
  (List.range n).flatMap (eventsAt cfg f)

/-- How one emission rewrites the last-emitted-partial tracker: an emitted
partial becomes the tracker value, a finalization clears it (lines 314 and
323). -/
def bufUpd (_b : String) : Event → String
  | Event.emitPartial p => p
  | Event.finalize _ => ""

/-- The last partial emitted since the last finalization (empty if none),
read off an emission history. -/
def bufSpec (evs : List Event) : String := evs.foldl bufUpd ""

/-- Texts of the emitted partial utterances in an emission history. -/
def partialTexts (evs : List Event) : List String :=
  evs.filterMap fun e =>
    match e with
    | Event.emitPartial p => some p
    | Event.finalize _ => none

/-- `j` is the position of the most recent speech frame before `n`, every
frame between it and `n` being silent and none of them far enough past it
to have closed the segment. -/
def lastSpeechOK (f : Nat → Frame) (j n : Nat) : Prop :=
  j < n ∧ (f j).speaking = true ∧
    ∀ k, j < k → k < n → (f k).speaking = false ∧ (f k).now - (f j).now < PAUSE_MS

/-- The spec's finalize scenario: frames every `BLOCK_MS` ms, ten speech
frames then continuous silence, with empty recognizer hypotheses and
partial emission disabled. -/
def scenFrames : Nat → Frame := fun i =>
  { speaking := decide (i < 10), now := BLOCK_MS * i, partialHyp := "", finalHyp := "" }

/-- Configuration without `--partials`. -/
def scenCfg : Config := ⟨false⟩

/-- A speaking frame always leaves the loop with `got_voice` set, the
voice timestamp refreshed, and the recognizer session untouched. -/
theorem stepFrame_speaking_fst (cfg : Config) (st : LoopState) (fr : Frame)
    (h : fr.speaking = true) :
    (stepFrame cfg st fr).1.got_voice = true ∧
      (stepFrame cfg st fr).1.last_voice_time = fr.now ∧
      (stepFrame cfg st fr).1.recGen = st.recGen := by
  unfold stepFrame
  simp only [h, if_true]
  split
  · split
    · exact ⟨rfl, rfl, rfl⟩
    · exact ⟨rfl, rfl, rfl⟩
  · exact ⟨rfl, rfl, rfl⟩

/-- A speaking frame emits nothing or a single partial. -/
theorem stepFrame_speaking_events (cfg : Config) (st : LoopState) (fr : Frame)
    (h : fr.speaking = true) :
    (stepFrame cfg st fr).2 = [] ∨
      ∃ p, (stepFrame cfg st fr).2 = [Event.emitPartial p] := by
  unfold stepFrame
  simp only [h, if_true]
  split
  · split
    · exact Or.inr ⟨_, rfl⟩
    · exact Or.inl rfl
  · exact Or.inl rfl

/-- A silent frame past the pause threshold finalizes: the final
hypothesis is flushed, the partial state cleared, and the session
generation advanced. -/
theorem stepFrame_silent_fin (cfg : Config) (st : LoopState) (fr : Frame)
    (h : fr.speaking = false) (hg : st.got_voice = true)
    (hp : PAUSE_MS ≤ fr.now - st.last_voice_time) :
    stepFrame cfg st fr =
      ({ st with got_voice := false, partial_buf_text := ""
                 partial_last_emit := 0, recGen := st.recGen + 1 },
       [Event.finalize (pyStrip fr.finalHyp)]) := by
  unfold stepFrame
  rw [if_neg (by simp [h]), if_pos ⟨hg, hp⟩]

/-- A silent frame below the pause threshold (or with no voice seen) is a
no-op. -/
theorem stepFrame_silent_skip (cfg : Config) (st : LoopState) (fr : Frame)
    (h : fr.speaking = false)
    (hn : ¬(st.got_voice = true ∧ PAUSE_MS ≤ fr.now - st.last_voice_time)) :
    stepFrame cfg st fr = (st, []) := by
  unfold stepFrame
  rw [if_neg (by simp [h]), if_neg hn]

/-- Frame `n` finalizes exactly when it is silent while `got_voice` holds
and the pause threshold has elapsed since `last_voice_time`. -/
theorem finalizeAt_iff_raw (cfg : Config) (f : Nat → Frame) (n : Nat) :
    finalizeAt cfg f n = true ↔
      ((f n).speaking = false ∧ (stateAfter cfg f n).got_voice = true ∧
        PAUSE_MS ≤ (f n).now - (stateAfter cfg f n).last_voice_time) := by
  unfold finalizeAt eventsAt
  by_cases h : (f n).speaking = true
  · rcases stepFrame_speaking_events cfg (stateAfter cfg f n) (f n) h with he | ⟨p, he⟩ <;>
      rw [he] <;> simp [isFinalizeEv, h]
  · have h' : (f n).speaking = false := by
      revert h; cases (f n).speaking <;> simp
    by_cases hc : (stateAfter cfg f n).got_voice = true ∧
        PAUSE_MS ≤ (f n).now - (stateAfter cfg f n).last_voice_time
    · rw [stepFrame_silent_fin cfg _ _ h' hc.1 hc.2]
      simp [isFinalizeEv, h', hc.1, hc.2]
    · rw [stepFrame_silent_skip cfg _ _ h' hc]
      simp only [List.any_nil, h', true_and]
      constructor
      · intro hfalse
        exact Bool.noConfusion hfalse
      · intro hand
        exact absurd hand hc

/-- The voice-tracking invariant of the loop: `got_voice` holds exactly
when some speech frame `j` has been seen with only silent, not-yet-closing
frames after it, and `last_voice_time` is then that frame's timestamp. -/
theorem segInv (cfg : Config) (f : Nat → Frame) :
    ∀ n, ((stateAfter cfg f n).got_voice = true ↔ ∃ j, lastSpeechOK f j n) ∧
      (∀ j, lastSpeechOK f j n → (stateAfter cfg f n).last_voice_time = (f j).now) := by
  intro n
  induction n with
  | zero =>
    constructor
    · constructor
      · intro h
        simp [stateAfter, initState] at h
      · rintro ⟨j, hj⟩
        exact absurd hj.1 (Nat.not_lt_zero j)
    · intro j hj
      exact absurd hj.1 (Nat.not_lt_zero j)
  | succ n ih =>
    have hSA : stateAfter cfg f (n + 1) = (stepFrame cfg (stateAfter cfg f n) (f n)).1 := rfl
    by_cases hs : (f n).speaking = true
    · obtain ⟨hgv, hlvt, _⟩ := stepFrame_speaking_fst cfg (stateAfter cfg f n) (f n) hs
      have hJ : lastSpeechOK f n (n + 1) :=
        ⟨Nat.lt_succ_self n, hs, fun k hk1 hk2 => absurd hk2 (by omega)⟩
      have huniq : ∀ j, lastSpeechOK f j (n + 1) → j = n := by
        intro j hj
        by_contra hne
        have hjn : j < n := by have := hj.1; omega
        have hsil := (hj.2.2 n hjn (Nat.lt_succ_self n)).1
        rw [hs] at hsil
        exact Bool.noConfusion hsil
      constructor
      · rw [hSA]
        exact ⟨fun _ => ⟨n, hJ⟩, fun _ => hgv⟩
      · intro j hj
        rw [hSA, hlvt, huniq j hj]
    · have hs' : (f n).speaking = false := by
        revert hs; cases (f n).speaking <;> simp
      have hnoj : ∀ j, lastSpeechOK f j (n + 1) →
          lastSpeechOK f j n ∧ (f n).now - (f j).now < PAUSE_MS := by
        intro j hj
        have hjn : j < n := by
          rcases Nat.lt_succ_iff_lt_or_eq.mp hj.1 with h | h
          · exact h
          · subst h
            rw [hj.2.1] at hs'
            exact Bool.noConfusion hs'
        exact ⟨⟨hjn, hj.2.1,
            fun k hk1 hk2 => hj.2.2 k hk1 (hk2.trans (Nat.lt_succ_self n))⟩,
          (hj.2.2 n hjn (Nat.lt_succ_self n)).2⟩
      by_cases hc : (stateAfter cfg f n).got_voice = true ∧
          PAUSE_MS ≤ (f n).now - (stateAfter cfg f n).last_voice_time
      · have hstep := stepFrame_silent_fin cfg (stateAfter cfg f n) (f n) hs' hc.1 hc.2
        have hnone : ¬ ∃ j, lastSpeechOK f j (n + 1) := by
          rintro ⟨j, hj⟩
          obtain ⟨hjn, hlt⟩ := hnoj j hj
          have hlvt := ih.2 j hjn
          have hcr := hc.2
          rw [hlvt] at hcr
          omega
        constructor
        · rw [hSA, hstep]
          constructor
          · intro h; simp at h
          · intro h; exact absurd h hnone
        · intro j hj
          exact absurd ⟨j, hj⟩ hnone
      · have hstep := stepFrame_silent_skip cfg (stateAfter cfg f n) (f n) hs' hc
        have hSA' : stateAfter cfg f (n + 1) = stateAfter cfg f n := by rw [hSA, hstep]
        constructor
        · rw [hSA']
          constructor
          · intro hgv
            obtain ⟨j, hj⟩ := ih.1.mp hgv
            have hlvt := ih.2 j hj
            have hnp : (f n).now - (f j).now < PAUSE_MS := by
              by_contra hge
              exact hc ⟨hgv, by rw [hlvt]; omega⟩
            refine ⟨j, hj.1.trans (Nat.lt_succ_self n), hj.2.1, ?_⟩
            intro k hk1 hk2
            rcases Nat.lt_succ_iff_lt_or_eq.mp hk2 with h | h
            · exact hj.2.2 k hk1 h
            · subst h
              exact ⟨hs', hnp⟩
          · rintro ⟨j, hj⟩
            exact ih.1.mpr ⟨j, (hnoj j hj).1⟩
        · intro j hj
          rw [hSA']
          exact ih.2 j (hnoj j hj).1

/-- History characterization of finalization: frame `n` finalizes iff it
is silent and the most recent speech frame `j` (with no finalize since)
lies at least `PAUSE_MS` in the past. -/
theorem finalize_char (cfg : Config) (f : Nat → Frame) (n : Nat) :
    finalizeAt cfg f n = true ↔
      ((f n).speaking = false ∧
        ∃ j, lastSpeechOK f j n ∧ PAUSE_MS ≤ (f n).now - (f j).now) := by
  rw [finalizeAt_iff_raw]
  constructor
  · rintro ⟨h1, h2, h3⟩
    obtain ⟨j, hj⟩ := (segInv cfg f n).1.mp h2
    refine ⟨h1, j, hj, ?_⟩
    rw [← (segInv cfg f n).2 j hj]
    exact h3
  · rintro ⟨h1, j, hj, hcr⟩
    refine ⟨h1, (segInv cfg f n).1.mpr ⟨j, hj⟩, ?_⟩
    rw [(segInv cfg f n).2 j hj]
    exact hcr

/-- Within one contiguous silence run a second finalization never fires. -/
theorem finalize_once (cfg : Config) (f : Nat → Frame) (n m : Nat)
    (h : finalizeAt cfg f n = true) (hnm : n < m)
    (hsil : ∀ k, n < k → k ≤ m → (f k).speaking = false) :
    finalizeAt cfg f m = false := by
  by_contra hmb
  have hm : finalizeAt cfg f m = true := by
    revert hmb; cases finalizeAt cfg f m <;> simp
  obtain ⟨hm1, j, hJm, hcrm⟩ := (finalize_char cfg f m).mp hm
  obtain ⟨hn1, j2, hJn, hcrn⟩ := (finalize_char cfg f n).mp h
  have hjle : j ≤ n := by
    by_contra hgt
    have hnj : n < j := by omega
    have hsp := hsil j hnj (Nat.le_of_lt hJm.1)
    rw [hJm.2.1] at hsp
    exact Bool.noConfusion hsp
  have hjn : j < n := by
    rcases Nat.lt_or_ge j n with h' | h'
    · exact h'
    · have hjeq : j = n := by omega
      subst hjeq
      rw [hJm.2.1] at hn1
      exact Bool.noConfusion hn1
  have hj2j : j2 = j := by
    rcases Nat.lt_trichotomy j2 j with h' | h' | h'
    · have hsp := (hJn.2.2 j h' hjn).1
      rw [hJm.2.1] at hsp
      exact Bool.noConfusion hsp
    · exact h'
    · have hj2m : j2 < m := lt_trans hJn.1 hnm
      have hsp := (hJm.2.2 j2 h' hj2m).1
      rw [hJn.2.1] at hsp
      exact Bool.noConfusion hsp
  subst hj2j
  have hbelow := (hJm.2.2 n hjn hnm).2
  omega

/-- C1: a segment is finalized exactly at the silent frames where the
contiguous silence elapsed since the most recent speech frame (with no
intervening finalize) first reaches `PAUSE_MS`; a silence run yields no
second finalize; and on the scenario of ten 30 ms speech frames followed
by silence with `PAUSE_MS = 800`, exactly one finalize fires, at frame 36,
the frame whose silence gap (810 ms) first crosses the 800 ms mark. -/
theorem c1_segmenter_finalize :
    (∀ (cfg : Config) (f : Nat → Frame) (n : Nat),
        finalizeAt cfg f n = true ↔
          ((f n).speaking = false ∧
            ∃ j, lastSpeechOK f j n ∧ PAUSE_MS ≤ (f n).now - (f j).now)) ∧
    (∀ (cfg : Config) (f : Nat → Frame) (n m : Nat),
        finalizeAt cfg f n = true → n < m →
          (∀ k, n < k → k ≤ m → (f k).speaking = false) →
          finalizeAt cfg f m = false) ∧
    (∀ i : Fin 40, finalizeAt scenCfg scenFrames i.1 = decide (i.1 = 36)) :=
  ⟨finalize_char, finalize_once, by decide⟩

/-- C1 witness: in the concrete scenario the finalize at frame 36 blocks
any further finalize while the silence run continues. -/
theorem c1_segmenter_finalize_witness :
    finalizeAt scenCfg scenFrames 36 = true ∧
      finalizeAt scenCfg scenFrames 38 = false :=
  ⟨by decide,
    c1_segmenter_finalize.2.1 scenCfg scenFrames 36 38 (by decide) (by decide)
      (fun k hk1 _ => by
        simp only [scenFrames]
        exact decide_eq_false (by omega))⟩

/-- A `Bool` that is not `true` is `false`. -/
theorem boolFalse {b : Bool} (h : ¬b = true) : b = false := by
  cases b
  · rfl
  · exact absurd rfl h

/-- A speaking frame either emits nothing and keeps the partial tracker,
or emits one partial text `p` and records it with the emission time. -/
theorem stepFrame_speaking_split (cfg : Config) (st : LoopState) (fr : Frame)
    (h : fr.speaking = true) :
    ((stepFrame cfg st fr).2 = [] ∧
      (stepFrame cfg st fr).1.partial_buf_text = st.partial_buf_text ∧
      (stepFrame cfg st fr).1.partial_last_emit = st.partial_last_emit) ∨
    (∃ p, (stepFrame cfg st fr).2 = [Event.emitPartial p] ∧
      (stepFrame cfg st fr).1.partial_buf_text = p ∧
      (stepFrame cfg st fr).1.partial_last_emit = fr.now) := by
  unfold stepFrame
  simp only [h, if_true]
  split
  · split
    · exact Or.inr ⟨_, rfl, rfl, rfl⟩
    · exact Or.inl ⟨rfl, rfl, rfl⟩
  · exact Or.inl ⟨rfl, rfl, rfl⟩

/-- The recognizer generation advances exactly when the frame finalizes. -/
theorem stepFrame_recGen (cfg : Config) (st : LoopState) (fr : Frame) :
    (stepFrame cfg st fr).1.recGen =
      st.recGen + (if (stepFrame cfg st fr).2.any isFinalizeEv then 1 else 0) := by
  by_cases h : fr.speaking = true
  · obtain ⟨_, _, hrg⟩ := stepFrame_speaking_fst cfg st fr h
    rcases stepFrame_speaking_events cfg st fr h with he | ⟨p, he⟩ <;>
      rw [hrg, he] <;> simp [isFinalizeEv]
  · have h' := boolFalse h
    by_cases hc : st.got_voice = true ∧ PAUSE_MS ≤ fr.now - st.last_voice_time
    · rw [stepFrame_silent_fin cfg st fr h' hc.1 hc.2]
      simp [isFinalizeEv]
    · rw [stepFrame_silent_skip cfg st fr h' hc]
      simp

/-- Each frame produces at most one emission. -/
theorem stepFrame_events_len (cfg : Config) (st : LoopState) (fr : Frame) :
    (stepFrame cfg st fr).2.length ≤ 1 := by
  by_cases h : fr.speaking = true
  · rcases stepFrame_speaking_events cfg st fr h with he | ⟨p, he⟩ <;> rw [he] <;> simp
  · have h' := boolFalse h
    by_cases hc : st.got_voice = true ∧ PAUSE_MS ≤ fr.now - st.last_voice_time
    · rw [stepFrame_silent_fin cfg st fr h' hc.1 hc.2]
      simp
    · rw [stepFrame_silent_skip cfg st fr h' hc]
      simp

/-- A partial is emitted only when it equals the stripped hypothesis, is
nonempty, differs from the tracked previous partial, and is long enough. -/
theorem emit_mem_conds (cfg : Config) (st : LoopState) (fr : Frame) (p : String)
    (h : Event.emitPartial p ∈ (stepFrame cfg st fr).2) :
    p = pyStrip fr.partialHyp ∧ p ≠ "" ∧ p ≠ st.partial_buf_text ∧
      MIN_PARTIAL_CHARS ≤ p.length := by
  by_cases hs : fr.speaking = true
  · unfold stepFrame at h
    simp only [hs, if_true] at h
    split at h
    · split at h
      · rename_i hcond
        simp only [List.mem_singleton, Event.emitPartial.injEq] at h
        subst h
        exact ⟨rfl, hcond.1, hcond.2.1, hcond.2.2⟩
      · simp at h
    · simp at h
  · have hs' := boolFalse hs
    by_cases hc : st.got_voice = true ∧ PAUSE_MS ≤ fr.now - st.last_voice_time
    · rw [stepFrame_silent_fin cfg st fr hs' hc.1 hc.2] at h
      simp at h
    · rw [stepFrame_silent_skip cfg st fr hs' hc] at h
      simp at h

/-- The partial tracker is rewritten exactly as the frame's emissions
prescribe. -/
theorem stepFrame_buf (cfg : Config) (st : LoopState) (fr : Frame) :
    (stepFrame cfg st fr).1.partial_buf_text =
      List.foldl bufUpd st.partial_buf_text (stepFrame cfg st fr).2 := by
  by_cases hs : fr.speaking = true
  · rcases stepFrame_speaking_split cfg st fr hs with ⟨he, hb, _⟩ | ⟨p, he, hb, _⟩ <;>
      rw [he, hb] <;> simp [bufUpd]
  · have hs' := boolFalse hs
    by_cases hc : st.got_voice = true ∧ PAUSE_MS ≤ fr.now - st.last_voice_time
    · rw [stepFrame_silent_fin cfg st fr hs' hc.1 hc.2]
      simp [bufUpd]
    · rw [stepFrame_silent_skip cfg st fr hs' hc]
      simp

/-- The session generation after `n` frames counts the finalizations. -/
theorem recGen_eq (cfg : Config) (f : Nat → Frame) :
    ∀ n, (stateAfter cfg f n).recGen = finCount cfg f n := by
  intro n
  induction n with
  | zero => rfl
  | succ n ih =>
    have hsa : stateAfter cfg f (n + 1) = (stepFrame cfg (stateAfter cfg f n) (f n)).1 := rfl
    rw [hsa, stepFrame_recGen, ih]
    rfl

/-- The session generation never decreases over one frame. -/
theorem recGen_le_succ (cfg : Config) (f : Nat → Frame) (n : Nat) :
    (stateAfter cfg f n).recGen ≤ (stateAfter cfg f (n + 1)).recGen := by
  have hsa : stateAfter cfg f (n + 1) = (stepFrame cfg (stateAfter cfg f n) (f n)).1 := rfl
  rw [hsa, stepFrame_recGen]
  split <;> omega

/-- The session generation is monotone along the run. -/
theorem recGen_mono (cfg : Config) (f : Nat → Frame) (i : Nat) :
    ∀ k, i ≤ k → (stateAfter cfg f i).recGen ≤ (stateAfter cfg f k).recGen := by
  intro k
  induction k with
  | zero =>
    intro h
    rw [Nat.le_zero.mp h]
  | succ k ih =>
    intro h
    by_cases h' : i = k + 1
    · rw [h']
    · have hik : i ≤ k := by omega
      exact le_trans (ih hik) (recGen_le_succ cfg f k)

/-- A finalization advances the session generation by one. -/
theorem recGen_succ_of_fin (cfg : Config) (f : Nat → Frame) (i : Nat)
    (h : finalizeAt cfg f i = true) :
    (stateAfter cfg f (i + 1)).recGen = (stateAfter cfg f i).recGen + 1 := by
  have hsa : stateAfter cfg f (i + 1) = (stepFrame cfg (stateAfter cfg f i) (f i)).1 := rfl
  rw [hsa, stepFrame_recGen]
  have hb : (stepFrame cfg (stateAfter cfg f i) (f i)).2.any isFinalizeEv = true := h
  simp [hb]

/-- C4: each frame `k` is fed (`rec.AcceptWaveform`, line 303, executed
before the finalize branch) to session generation `(stateAfter k).recGen`;
that generation equals the number of finalizations so far — the session is
rebuilt exactly once per finalize — and after the finalize at frame `i`
every later frame is fed to a strictly newer session, i.e. a fresh session
is in place before any further frame reaches the recognizer. -/
theorem c4_recognizer_reset :
    (∀ (cfg : Config) (f : Nat → Frame) (n : Nat),
        (stateAfter cfg f n).recGen = finCount cfg f n) ∧
    (∀ (cfg : Config) (f : Nat → Frame) (i k : Nat),
        finalizeAt cfg f i = true → i < k →
          (stateAfter cfg f i).recGen < (stateAfter cfg f k).recGen) := by
  constructor
  · exact fun cfg f n => recGen_eq cfg f n
  · intro cfg f i k h hik
    have h1 : (stateAfter cfg f i).recGen < (stateAfter cfg f (i + 1)).recGen := by
      rw [recGen_succ_of_fin cfg f i h]
      omega
    exact lt_of_lt_of_le h1 (recGen_mono cfg f (i + 1) k hik)

/-- C4 witness: in the finalize scenario, the session live at frame 36 is
older than the one fed at frame 39, and the generation after 40 frames is
the finalize count. -/
theorem c4_recognizer_reset_witness :
    (stateAfter scenCfg scenFrames 40).recGen = finCount scenCfg scenFrames 40 ∧
      (stateAfter scenCfg scenFrames 36).recGen < (stateAfter scenCfg scenFrames 39).recGen :=
  ⟨c4_recognizer_reset.1 scenCfg scenFrames 40,
   c4_recognizer_reset.2 scenCfg scenFrames 36 39 (by decide) (by decide)⟩

/-- Splitting the emission history at the last processed frame. -/
theorem eventsUpTo_succ (cfg : Config) (f : Nat → Frame) (n : Nat) :
    eventsUpTo cfg f (n + 1) = eventsUpTo cfg f n ++ eventsAt cfg f n := by
  unfold eventsUpTo
  rw [List.range_succ, List.flatMap_append]
  simp

/-- The loop's `partial_buf_text` always equals the last partial emitted
since the last finalization, as read off the emission history. -/
theorem buf_eq_bufSpec (cfg : Config) (f : Nat → Frame) :
    ∀ n, (stateAfter cfg f n).partial_buf_text = bufSpec (eventsUpTo cfg f n) := by
  intro n
  induction n with
  | zero => rfl
  | succ n ih =>
    have hsa : stateAfter cfg f (n + 1) = (stepFrame cfg (stateAfter cfg f n) (f n)).1 := rfl
    rw [hsa, stepFrame_buf, ih, eventsUpTo_succ]
    unfold bufSpec
    rw [List.foldl_append]
    rfl

/-- Configuration with `--partials` enabled. -/
def pCfg : Config := ⟨true⟩

/-- Counterexample stream for C6: an emitted partial, a finalizing silent
frame, then the recognizer (freshly restarted) produces the same partial
text again. -/
def c6Frames : Nat → Frame := fun i =>
  { speaking := decide (i ≠ 1), now := 2000 + 1000 * i
    partialHyp := "hello!", finalHyp := "" }

/-- C6 counterexample: over three frames the loop emits the partial
"hello!", finalizes, and then emits "hello!" again — a partial with text
identical to the immediately prior emitted partial, because finalization
clears `partial_buf_text` (line 323). -/
theorem c6_counterexample :
    partialTexts (eventsUpTo pCfg c6Frames 3) = ["hello!", "hello!"] ∧
      ¬ List.Chain' (fun a b => a ≠ b) (partialTexts (eventsUpTo pCfg c6Frames 3)) := by
  have h : partialTexts (eventsUpTo pCfg c6Frames 3) = ["hello!", "hello!"] := by decide
  refine ⟨h, ?_⟩
  rw [h]
  simp [List.chain'_cons]

/-- C6 (amended): every emitted partial has at least `MIN_PARTIAL_CHARS`
characters, is nonempty, and differs from the last partial emitted since
the last finalization (so identical consecutive partials are impossible
within one segment; only a finalization in between allows a repeat). -/
theorem c6_partial_freshness (cfg : Config) (f : Nat → Frame) (n : Nat) (p : String)
    (h : Event.emitPartial p ∈ eventsAt cfg f n) :
    MIN_PARTIAL_CHARS ≤ p.length ∧ p ≠ bufSpec (eventsUpTo cfg f n) ∧ p ≠ "" := by
  obtain ⟨_, hne, hdiff, hlen⟩ := emit_mem_conds cfg (stateAfter cfg f n) (f n) p h
  refine ⟨hlen, ?_, hne⟩
  rw [← buf_eq_bufSpec cfg f n]
  exact hdiff

/-- C6 witness: the partial emitted at frame 0 of the counterexample
stream is long enough, nonempty and fresh for its (empty) history. -/
theorem c6_partial_freshness_witness :
    MIN_PARTIAL_CHARS ≤ ("hello!" : String).length ∧
      "hello!" ≠ bufSpec (eventsUpTo pCfg c6Frames 0) ∧ ("hello!" : String) ≠ "" :=
  c6_partial_freshness pCfg c6Frames 0 "hello!" (by decide)

/-- `finCount` grows by at most one per frame. -/
theorem finCount_le_succ (cfg : Config) (f : Nat → Frame) (n : Nat) :
    finCount cfg f n ≤ finCount cfg f (n + 1) := by
  have hs : finCount cfg f (n + 1) =
      finCount cfg f n + (if finalizeAt cfg f n then 1 else 0) := rfl
  rw [hs]
  split <;> omega

/-- `finCount` is monotone. -/
theorem finCount_mono (cfg : Config) (f : Nat → Frame) (i : Nat) :
    ∀ k, i ≤ k → finCount cfg f i ≤ finCount cfg f k := by
  intro k
  induction k with
  | zero =>
    intro h
    rw [Nat.le_zero.mp h]
  | succ k ih =>
    intro h
    by_cases h' : i = k + 1
    · rw [h']
    · have hik : i ≤ k := by omega
      exact le_trans (ih hik) (finCount_le_succ cfg f k)

/-- A finalization closes its segment: the open-segment index advances. -/
theorem finCount_succ_of_fin (cfg : Config) (f : Nat → Frame) (i : Nat)
    (h : finalizeAt cfg f i = true) :
    finCount cfg f (i + 1) = finCount cfg f i + 1 := by
  have hs : finCount cfg f (i + 1) =
      finCount cfg f i + (if finalizeAt cfg f i then 1 else 0) := rfl
  rw [hs, h]
  rfl

/-- C7: emissions reach the speech queue in frame-processing order (the
single-threaded loop calls `tts.say` at lines 316/329 while handling the
frame, and each frame contributes at most one emission); every emission at
frame `k` belongs to the segment with index `finCount k`; the segment
index is monotone along the run and strictly increases past a finalize, so
any partial emitted after the finalize of segment `s` (at frame `i`,
`finCount i = s`) carries a segment index `> s` — no partial of an
already-finalized segment ever follows its final onto the queue. -/
theorem c7_queue_order :
    (∀ (cfg : Config) (f : Nat → Frame) (n : Nat), (eventsAt cfg f n).length ≤ 1) ∧
    (∀ (cfg : Config) (f : Nat → Frame) (i k : Nat), i ≤ k →
        finCount cfg f i ≤ finCount cfg f k) ∧
    (∀ (cfg : Config) (f : Nat → Frame) (i k : Nat),
        finalizeAt cfg f i = true → i < k → finCount cfg f i < finCount cfg f k) := by
  refine ⟨?_, ?_, ?_⟩
  · exact fun cfg f n => stepFrame_events_len cfg (stateAfter cfg f n) (f n)
  · exact fun cfg f i k h => finCount_mono cfg f i k h
  · intro cfg f i k h hik
    have h1 : finCount cfg f i < finCount cfg f (i + 1) := by
      rw [finCount_succ_of_fin cfg f i h]
      omega
    exact lt_of_lt_of_le h1 (finCount_mono cfg f (i + 1) k hik)

/-- C7 witness: the finalize at frame 1 of the counterexample stream
pushes every later emission into a strictly later segment. -/
theorem c7_queue_order_witness :
    finCount pCfg c6Frames 1 < finCount pCfg c6Frames 2 :=
  c7_queue_order.2.2 pCfg c6Frames 1 2 (by decide) (by decide)

/-- Counterexample stream for C2: a partial emitted at frame 0, then a
candidate arriving exactly `PARTIAL_EVERY` ms later with different text. -/
def c2Frames : Nat → Frame := fun i =>
  { speaking := true, now := 2000 + 1200 * i
    partialHyp := if i = 0 then "hello there" else "hello there friend", finalHyp := "" }

/-- C2 counterexample: at frame 1 exactly `PARTIAL_EVERY` ms have elapsed
since `partial_last_emit`, partials are enabled, the frame is speech, the
stripped hypothesis differs from the previous partial and is long enough —
yet nothing is emitted, because line 310 tests
`(now - partial_last_emit) * 1000.0 > PARTIAL_EVERY` strictly. -/
theorem c2_boundary_counterexample :
    pCfg.partials = true ∧ (c2Frames 1).speaking = true ∧
      (c2Frames 1).now - (stateAfter pCfg c2Frames 1).partial_last_emit = PARTIAL_EVERY ∧
      pyStrip (c2Frames 1).partialHyp ≠ (stateAfter pCfg c2Frames 1).partial_buf_text ∧
      pyStrip (c2Frames 1).partialHyp ≠ "" ∧
      MIN_PARTIAL_CHARS ≤ (pyStrip (c2Frames 1).partialHyp).length ∧
      emitsPartialAt pCfg c2Frames 1 = false := by
  decide

/-- C2 (amended): with partials enabled, a speech frame emits the stripped
partial hypothesis (and records the emission time) whenever strictly more
than `PARTIAL_EVERY` ms elapsed since `partial_last_emit` and the text
conditions hold; at elapsed time ≤ `PARTIAL_EVERY` — the exact boundary
included — a speech frame emits nothing. -/
theorem c2_partial_throttle :
    (∀ (cfg : Config) (st : LoopState) (fr : Frame),
        cfg.partials = true → fr.speaking = true →
        PARTIAL_EVERY < fr.now - st.partial_last_emit →
        pyStrip fr.partialHyp ≠ "" →
        pyStrip fr.partialHyp ≠ st.partial_buf_text →
        MIN_PARTIAL_CHARS ≤ (pyStrip fr.partialHyp).length →
        (stepFrame cfg st fr).2 = [Event.emitPartial (pyStrip fr.partialHyp)] ∧
          (stepFrame cfg st fr).1.partial_last_emit = fr.now) ∧
    (∀ (cfg : Config) (st : LoopState) (fr : Frame),
        fr.speaking = true → fr.now - st.partial_last_emit ≤ PARTIAL_EVERY →
        (stepFrame cfg st fr).2 = []) := by
  constructor
  · intro cfg st fr hp hs ht h1 h2 h3
    unfold stepFrame
    simp only [hs, if_true]
    rw [if_pos ⟨hp, ht⟩, if_pos ⟨h1, h2, h3⟩]
    exact ⟨rfl, rfl⟩
  · intro cfg st fr hs hle
    unfold stepFrame
    simp only [hs, if_true]
    rw [if_neg (fun hand => absurd hand.2 (by omega))]

/-- C2 witness: frame 0 of the counterexample stream (2000 ms elapsed)
emits its partial; frame 1 (exactly 1200 ms elapsed) emits nothing. -/
theorem c2_partial_throttle_witness :
    (stepFrame pCfg initState (c2Frames 0)).2 =
        [Event.emitPartial (pyStrip (c2Frames 0).partialHyp)] ∧
      (stepFrame pCfg (stateAfter pCfg c2Frames 1) (c2Frames 1)).2 = [] :=
  ⟨(c2_partial_throttle.1 pCfg initState (c2Frames 0) (by decide) (by decide) (by decide)
      (by decide) (by decide) (by decide)).1,
   c2_partial_throttle.2 pCfg (stateAfter pCfg c2Frames 1) (c2Frames 1) (by decide) (by decide)⟩

/-- C3: `say` with `priority = 1` (the `drain_first` mode assigned to
final utterances) discards every queued job before appending the new one —
a queue holding jobs A and B followed by an urgent enqueue of C holds
exactly C — while any other priority appends without discarding.  The
drain and append happen inside one call of the single `say` invocation, so
no queued job survives it. -/
theorem c3_enqueue_drain :
    (∀ (q : List SpeechJob) (text lang_code : String), pyStrip text ≠ "" →
        tts_say text lang_code 1 q = [(pyStrip text, lang_code)]) ∧
    (∀ (q : List SpeechJob) (text lang_code : String) (p : Nat),
        pyStrip text ≠ "" → p ≠ 1 →
        tts_say text lang_code p q = q ++ [(pyStrip text, lang_code)]) := by
  constructor
  · intro q text lc h
    simp only [tts_say]
    rw [if_neg h]
    simp
  · intro q text lc p h hp
    simp only [tts_say]
    rw [if_neg h, if_neg hp]

/-- C3 witness: `[A, B]` drained by an urgent C, and a plain append. -/
theorem c3_enqueue_drain_witness :
    tts_say "C" "en" 1 [("A", "en"), ("B", "en")] = [(pyStrip "C", "en")] ∧
      tts_say "C" "en" 0 [("A", "en")] = [("A", "en")] ++ [(pyStrip "C", "en")] :=
  ⟨c3_enqueue_drain.1 [("A", "en"), ("B", "en")] "C" "en" (by decide),
   c3_enqueue_drain.2 [("A", "en")] "C" "en" 0 (by decide) (by decide)⟩

/-- C9: a text that strips to empty makes `say` return before the drain
check (line 106), so the queue is untouched even at `priority = 1`. -/
theorem c9_empty_say_noop (text lang_code : String) (priority : Nat)
    (q : List SpeechJob) (h : pyStrip text = "") :
    tts_say text lang_code priority q = q := by
  simp only [tts_say]
  rw [if_pos h]

/-- C9 witness: whitespace-only text at urgent priority leaves a pending
job in place. -/
theorem c9_empty_say_noop_witness :
    tts_say " \t " "en" 1 [("A", "en")] = [("A", "en")] :=
  c9_empty_say_noop " \t " "en" 1 [("A", "en")] (by decide)

/-- C5: when the requested language pair is unavailable (installed-language
enumeration fails or a code is missing) or the engine call errors, the
call returns the input text unchanged paired with exactly one warning, and
being a total function it never propagates the error. -/
theorem c5_translate_failsoft (mt : MT) (src tgt text : String)
    (h : pairUnavailable mt src tgt ∨ mt.run src tgt text = Except.error ()) :
    translate_text mt src tgt text = (text, 1) := by
  cases hl : mt.langs with
  | error e =>
    unfold translate_text
    rw [hl]
  | ok cs =>
    have hred : translate_text mt src tgt text =
        if src ∈ cs ∧ tgt ∈ cs then
          (match mt.run src tgt text with
            | Except.ok out => (out, 0)
            | Except.error _ => (text, 1))
        else (text, 1) := by
      unfold translate_text
      rw [hl]
    by_cases hmem : src ∈ cs ∧ tgt ∈ cs
    · rcases h with h | h
      · exfalso
        unfold pairUnavailable at h
        rw [hl] at h
        rcases h with h | h
        · exact h hmem.1
        · exact h hmem.2
      · rw [hred, if_pos hmem, h]
    · rw [hred, if_neg hmem]

/-- An engine with only Spanish installed. -/
def mtMissing : MT := ⟨Except.ok ["es"], fun _ _ text => Except.ok text⟩

/-- C5 witness: translating es→en with the en pack missing passes the
text through with one warning. -/
theorem c5_translate_failsoft_witness :
    translate_text mtMissing "es" "en" "hola amigo" = ("hola amigo", 1) :=
  c5_translate_failsoft mtMissing "es" "en" "hola amigo"
    (Or.inl (by
      show ("es" : String) ∉ ["es"] ∨ ("en" : String) ∉ ["es"]
      right
      decide))

/-- The mean square of normalized samples is nonnegative. -/
theorem meanSq_nonneg (s : List ℤ) : 0 ≤ meanSq s := by
  unfold meanSq
  split
  · exact le_refl 0
  · apply div_nonneg
    · apply List.sum_nonneg
      intro x hx
      simp only [List.mem_map] at hx
      obtain ⟨v, _, rfl⟩ := hx
      exact mul_self_nonneg _
    · exact_mod_cast Nat.zero_le _

/-- All-zero samples have zero mean square. -/
theorem meanSq_replicate_zero (n : Nat) : meanSq (List.replicate n 0) = 0 := by
  unfold meanSq
  split
  · rfl
  · rw [List.map_replicate]
    have h0 : (((0 : ℤ) : ℚ) / 32768) * (((0 : ℤ) : ℚ) / 32768) = 0 := by norm_num
    rw [h0, List.sum_replicate, smul_zero, zero_div]

/-- All-zero samples have zero RMS. -/
theorem rms_replicate_zero (n : Nat) : rms_energy (List.replicate n 0) = 0 := by
  unfold rms_energy
  split
  · rfl
  · rw [meanSq_replicate_zero]
    simp [Real.sqrt_zero]

/-- All-zero samples are classified silent. -/
theorem speech_replicate_zero (n : Nat) : is_speech_energy (List.replicate n 0) = false := by
  unfold is_speech_energy
  rw [meanSq_replicate_zero, decide_eq_false_iff_not]
  norm_num [RMS_THRESH]

/-- C8: the classifier is a pure function of the frame returning true
exactly when the RMS of the normalized samples is at least `RMS_THRESH`;
the empty frame has RMS 0 and is not speech, and a frame of all-zero
samples yields RMS 0.0 and is classified silent. -/
theorem c8_energy_detector :
    (∀ s : List ℤ, is_speech_energy s = true ↔ (RMS_THRESH : ℝ) ≤ rms_energy s) ∧
    rms_energy [] = 0 ∧ is_speech_energy [] = false ∧
    (∀ n : Nat, rms_energy (List.replicate n 0) = 0 ∧
      is_speech_energy (List.replicate n 0) = false) := by
  refine ⟨?_, rfl, speech_replicate_zero 0,
    fun n => ⟨rms_replicate_zero n, speech_replicate_zero n⟩⟩
  intro s
  unfold is_speech_energy rms_energy
  by_cases h : s = []
  · subst h
    rw [if_pos rfl, show meanSq ([] : List ℤ) = 0 from rfl, decide_eq_true_eq]
    norm_num [RMS_THRESH]
  · rw [if_neg h, decide_eq_true_eq, Real.le_sqrt' (by norm_num [RMS_THRESH])]
    constructor
    · intro hle
      exact_mod_cast hle
    · intro hle
      exact_mod_cast hle

/-- Byte strings of even length always decode to int16 samples. -/
theorem int16List_even : ∀ (bs : List Nat), bs.length % 2 = 0 → ∃ s, int16List bs = some s
  | [], _ => ⟨[], rfl⟩
  | [_], h => by simp [List.length_singleton] at h
  | lo :: hi :: rest, h => by
    have hr : rest.length % 2 = 0 := by
      simp only [List.length_cons] at h
      omega
    obtain ⟨s, hs⟩ := int16List_even rest hr
    refine ⟨int16OfPair lo hi :: s, ?_⟩
    unfold int16List
    rw [hs]
    rfl

/-- RMS is never negative. -/
theorem rms_energy_nonneg (s : List ℤ) : 0 ≤ rms_energy s := by
  unfold rms_energy
  split
  · exact le_refl 0
  · exact Real.sqrt_nonneg _

/-- Every frame the coordinator keeps has exactly `frame_bytes` bytes. -/
theorem sliceFrames_len (chunk : List Nat) (fr : List Nat)
    (h : fr ∈ sliceFrames chunk) : fr.length = frame_bytes := by
  unfold sliceFrames at h
  rw [List.mem_filter] at h
  obtain ⟨hmem, hge⟩ := h
  rw [List.mem_map] at hmem
  obtain ⟨k, _, rfl⟩ := hmem
  have hle : ((chunk.drop (k * frame_bytes)).take frame_bytes).length ≤ frame_bytes := by
    rw [List.length_take]
    exact min_le_left _ _
  have hge' := of_decide_eq_true hge
  omega

/-- C10: on byte strings of even length — and `frame_bytes` is even — the
energy computation is total with a nonnegative value, every frame the
coordinator classifies (a full slice of a captured chunk, short tails
skipped at line 296-297) has exactly `frame_bytes` bytes, and therefore
its classification is defined: the VAD step never fails in the pipeline. -/
theorem c10_classification_safe (bs chunk fr : List Nat)
    (hbs : bs.length % 2 = 0) (hfr : fr ∈ sliceFrames chunk) :
    (∃ r, rms_energyB bs = some r ∧ 0 ≤ r) ∧ frame_bytes % 2 = 0 ∧
      fr.length = frame_bytes ∧ ∃ b, is_speech_energyB fr = some b := by
  obtain ⟨s, hs⟩ := int16List_even bs hbs
  refine ⟨⟨rms_energy s, ?_, rms_energy_nonneg s⟩, by decide,
    sliceFrames_len chunk fr hfr, ?_⟩
  · unfold rms_energyB
    rw [hs]
    rfl
  · have hlen := sliceFrames_len chunk fr hfr
    have heven : fr.length % 2 = 0 := by
      rw [hlen]
      decide
    obtain ⟨s2, hs2⟩ := int16List_even fr heven
    refine ⟨is_speech_energy s2, ?_⟩
    unfold is_speech_energyB
    rw [hs2]
    rfl

set_option maxRecDepth 8000 in
/-- C10 witness: a two-byte frame and a full-chunk slice of all zeros. -/
theorem c10_classification_safe_witness :
    (([0, 0] : List Nat).length % 2 = 0 ∧
        List.replicate frame_bytes 0 ∈ sliceFrames (List.replicate frame_bytes 0)) ∧
      ((∃ r, rms_energyB [0, 0] = some r ∧ 0 ≤ r) ∧ frame_bytes % 2 = 0 ∧
        (List.replicate frame_bytes 0).length = frame_bytes ∧
        ∃ b, is_speech_energyB (List.replicate frame_bytes 0) = some b) := by
  have hmem : List.replicate frame_bytes 0 ∈ sliceFrames (List.replicate frame_bytes 0) := by
    decide
  exact ⟨⟨by decide, hmem⟩,
    c10_classification_safe [0, 0] (List.replicate frame_bytes 0)
      (List.replicate frame_bytes 0) (by decide) hmem⟩

end RT
